import Mathlib

/-!
Verification development for the miniprint receipt pipeline.

The pipeline (src/main.rs) fetches a puzzle document, rasterizes its vector
board to a printer-width bitmap, wraps clue and credit text to the printer's
column width, and emits an ordered sequence of print directives.

Pure fragments of `main.rs` (the scale arithmetic, `format_list`, the clue
loop and directive ordering) are embedded directly.  Behavior supplied by
external collaborator crates (textwrap, unicode-width, usvg sizing, jiff date
formatting) is modelled from the specification, as marked on each definition.
-/

namespace MiniPrint

/-- Modelled from the spec: the display cell width of one character, standing
in for the external unicode-width collaborator.  Control characters and
combining marks measure 0, a few representative East-Asian wide ranges
measure 2, and every other character measures 1. -/
def charWidth (c : Char) : Nat :=
  if c.val < 0x20 then 0
  else if c.val = 0x7f then 0
  else if 0x300 ≤ c.val ∧ c.val ≤ 0x36f then 0
  else if (0x1100 ≤ c.val ∧ c.val ≤ 0x115f) ∨ (0x2e80 ≤ c.val ∧ c.val ≤ 0xa4cf)
      ∨ (0xac00 ≤ c.val ∧ c.val ≤ 0xd7a3) ∨ (0xff00 ≤ c.val ∧ c.val ≤ 0xff60) then 2
  else 1

/-- Display width of a string: the sum of its characters' cell widths
(`UnicodeWidthStr::width` in the source). -/
def strWidth (s : String) : Nat := (s.data.map charWidth).sum

/-- Embeds the source's `" ".repeat(n)`. -/
def spaces (n : Nat) : String := String.mk (List.replicate n ' ')

/-- Helper for `splitWords`: scans characters, accumulating the current word
in reverse. -/
def splitWordsAux : List Char → List Char → List String
  | [], acc => if acc.isEmpty then [] else [String.mk acc.reverse]
  | c :: cs, acc =>
    if c = ' ' then
      (if acc.isEmpty then [] else [String.mk acc.reverse]) ++ splitWordsAux cs []
    else splitWordsAux cs (c :: acc)

/-- Modelled from the spec: the whitespace-boundary word split used by the
external textwrap collaborator ("greedily breaks text on whitespace
boundaries"), with U+0020 as the word separator. -/
def splitWords (s : String) : List String := splitWordsAux s.data []

/-- Modelled from the spec: greedy line filling.  `fillLine avail used ws`
extends a line that already holds `used` display columns with as many further
words of `ws` as fit in `avail` columns (one separating space before each),
returning the words taken and the words left over. -/
def fillLine (avail : Nat) (used : Nat) : List String → List String × List String
  | [] => ([], [])
  | w :: ws =>
    if used + 1 + strWidth w ≤ avail then
      let p := fillLine avail (used + 1 + strWidth w) ws
      (w :: p.1, p.2)
    else ([], w :: ws)

/-- Modelled from the spec: fuel-indexed greedy wrapping of a word list into
lines.  The first line offers `a` columns, every later line `b` columns; a
word that exceeds the offer still starts its own line.  The fuel is always
instantiated with the word count, which suffices because each line consumes
at least one word. -/
def wrapWordsGo : Nat → Nat → Nat → List String → List (List String)
  | _, _, _, [] => []
  | _, _, 0, w :: ws => [w :: ws]
  | a, b, fuel + 1, w :: ws =>
    let p := fillLine a (strWidth w) ws
    (w :: p.1) :: wrapWordsGo b b fuel p.2

/-- Greedy wrapping of a word list into lines: first line gets `a` columns,
later lines `b` columns. -/
def wrapWords (a b : Nat) (ws : List String) : List (List String) :=
  wrapWordsGo a b ws.length ws

/-- Joins the words of one line with single spaces. -/
def joinSp : List String → String
  | [] => ""
  | [w] => w
  | w :: ws => w ++ " " ++ joinSp ws

/-- Modelled from the spec: `wrap(text, width, initialIndent,
continuationIndent)` of the external textwrap collaborator.  Text is broken
greedily on whitespace into lines of at most `width` display columns; the
first line is prefixed with `initial_indent`, every later line with
`subsequent_indent`, and each indent's display width is subtracted from the
columns offered to that line.  Empty text produces an empty sequence. -/
def wrap (text : String) (width : Nat) (initial_indent subsequent_indent : String) :
    List String :=
  match wrapWords (width - strWidth initial_indent) (width - strWidth subsequent_indent)
      (splitWords text) with
  | [] => []
  | l :: rest => (initial_indent ++ joinSp l) :: rest.map fun l2 => subsequent_indent ++ joinSp l2

/-- Display columns consumed by appending the words `ws` to a non-empty line:
one separating space plus the word's width, for each word. -/
def lineSum (ws : List String) : Nat := (ws.map fun w => 1 + strWidth w).sum

/-- Display columns of a line of words joined by single spaces. -/
def lineWidth : List String → Nat
  | [] => 0
  | w :: ws => strWidth w + lineSum ws

/-- One iteration of the enumerated loop in the catch-all arm of
`format_list`, for a list of length `L`: before item `i` the loop pushes
`", and "` when `i` is the last index, `", "` when `i` is neither first nor
last, and nothing when `i = 0`. -/
def format_list_step (L : Nat) (out : String) (p : Nat × String) : String :=
  (if p.1 = L - 1 then out ++ ", and "
   else if p.1 ≠ 0 then out ++ ", "
   else out) ++ p.2

/-- Embeds the enumerated loop in the catch-all arm of `format_list`. -/
def format_list_go (xs : List String) : String :=
  xs.enum.foldl (format_list_step xs.length) ""

/-- Closed form of the loop's output for every item after the first: each
gets a `", "` separator, except the last, which gets `", and "`. -/
def midPart : List String → String
  | [] => ""
  | [y] => ", and " ++ y
  | y :: ys => ", " ++ y ++ midPart ys

/-- Embeds `format_list` from src/main.rs: one name is returned as is, two
names are joined with `" and "`, and any other list (including the empty
list) falls to the enumerated loop. -/
def format_list (s : List String) : String :=
  match s with
  | [x] => x
  | [x, y] => x ++ " and " ++ y
  | xs => format_list_go xs

/-- Embeds `let chars_per_line = 32` from `main`. -/
def chars_per_line : Nat := 32

/-- Embeds `let pixels_per_char = 12u8` from `main`. -/
def pixels_per_char : Nat := 12

/-- Embeds `let target_width = f32::from(pixels_per_char) *
f32::from(chars_per_line)` from `main`, with the f32 arithmetic carried out
over exact rationals. -/
def target_width : ℚ := (pixels_per_char : ℚ) * (chars_per_line : ℚ)

/-- Rounding to the nearest integer, halves away from zero for non-negative
inputs: the model of `f32::round` on the non-negative quantities of `main`. -/
def rround (q : ℚ) : ℤ := (q + 1 / 2).floor

/-- Embeds the two `let scale = ...` bindings of `main`: the ideal uniform
scale `target_width / w0` rounded to two decimal places. -/
def scale (w0 : ℚ) : ℚ := (rround (target_width / w0 * 100) : ℚ) / 100

/-- Embeds the canvas-size computation of `main`:
`usvg::Size::from_wh(target_width, size.height() * scale).to_int_size()`.
The conversion of each exact dimension to integer pixels is modelled from the
spec: width stays fixed at the target width and the height is rounded to the
nearest integer (`H = round(h0 * s)`). -/
def canvas_size (w0 h0 : ℚ) : ℤ × ℤ :=
  (rround target_width, rround (h0 * scale w0))

/-- Direction enum of a clue list, as deserialized in src/main.rs. -/
inductive Direction
  | Across
  | Down
deriving DecidableEq

/-- Renders a `Direction` the way the source's `format!("{:?}:", ..)` debug
formatting does, without the trailing colon. -/
def dirName : Direction → String
  | Direction.Across => "Across"
  | Direction.Down => "Down"

/-- Clue record from src/main.rs; `text` collects the `plain` field of each
`ClueText` variant. -/
structure Clue where
  label : String
  text : List String
deriving DecidableEq

/-- ClueList record from src/main.rs: clue indices in display order plus the
direction. -/
structure ClueList where
  clues : List Nat
  name : Direction
deriving DecidableEq

/-- Puzzle record from src/main.rs. -/
structure Puzzle where
  board : String
  clue_lists : List ClueList
  clues : List Clue
deriving DecidableEq

/-- MiniCrossword document record from src/main.rs; the publication date is
kept as the already-formatted string produced by the external jiff
collaborator. -/
structure MiniCrossword where
  body : List Puzzle
  constructors : List String
  editor : String
  publication_date : String
deriving DecidableEq

/-- One print directive handed to the external transport collaborator. -/
inductive Directive
  | writeln (s : String)
  | write (s : String)
  | feed
  | image
  | cut
deriving DecidableEq

/-- Index-out-of-bounds panics that `main` can hit while composing. -/
inductive PanicErr
  | boardIndex
  | clueIndex (i : Nat)
  | textIndex (i : Nat)
deriving DecidableEq

/-- Embeds `let label = format!("{}: ", clue.label)` from `main`. -/
def clue_indent (c : Clue) : String := c.label ++ ": "

/-- Embeds the per-clue `write_wrapped` call of `main`: wrap the clue's first
plain text to the column width with the label as initial indent and a run of
spaces of the label's display width as subsequent indent. -/
def clue_lines (c : Clue) (t : String) : List String :=
  wrap t chars_per_line (clue_indent c) (spaces (strWidth (clue_indent c)))

/-- Embeds the inner clue loop of `main`: resolve each referenced clue
(`puzzle.clues[i]`, a panic when out of bounds), take its first text variant
(`clue.text[0]`, a panic when empty) and emit the wrapped lines.  Returns the
directives emitted before any panic, together with the panic if one occurs. -/
def clueDirectives (clues : List Clue) : List Nat → List Directive × Option PanicErr
  | [] => ([], none)
  | i :: rest =>
    match clues[i]? with
    | none => ([], some (PanicErr.clueIndex i))
    | some c =>
      match c.text[0]? with
      | none => ([], some (PanicErr.textIndex i))
      | some t =>
        let p := clueDirectives clues rest
        ((clue_lines c t).map Directive.writeln ++ p.1, p.2)

/-- Embeds the outer clue-list loop of `main`: a direction header line, the
group's clues, then a feed after the group (the feed is reached only when the
group's clues all resolved). -/
def clueListDirectives (clues : List Clue) : List ClueList → List Directive × Option PanicErr
  | [] => ([], none)
  | cl :: rest =>
    let hdr := Directive.writeln (dirName cl.name ++ ":")
    let p := clueDirectives clues cl.clues
    match p.2 with
    | some e => (hdr :: p.1, some e)
    | none =>
      let q := clueListDirectives clues rest
      (hdr :: p.1 ++ [Directive.feed] ++ q.1, q.2)

/-- Directives `main` emits before the clue loops: title, date line, feed,
the board bitmap, two feeds. -/
def preDirectives (date : String) : List Directive :=
  [Directive.writeln "The NYT Mini Crossword", Directive.writeln date,
    Directive.feed, Directive.image, Directive.feed, Directive.feed]

/-- Embeds the directive-emission sequence of `main` after a successful fetch
and render: select the first board (`mini.body[0]`, a panic when the body is
empty), emit the fixed preamble, the clue groups, the constructor credit
block, the editor line and the cut.  Returns all directives emitted before
any panic, together with the panic if one occurs. -/
def compose (m : MiniCrossword) : List Directive × Option PanicErr :=
  match m.body[0]? with
  | none => ([], some PanicErr.boardIndex)
  | some puzzle =>
    let p := clueListDirectives puzzle.clues puzzle.clue_lists
    match p.2 with
    | some e => (preDirectives m.publication_date ++ p.1, some e)
    | none =>
      let credit :=
        (wrap (format_list m.constructors) chars_per_line "By " "   ").map Directive.writeln
      (preDirectives m.publication_date ++ p.1 ++ credit ++
        [Directive.write "Edited by ", Directive.writeln m.editor, Directive.cut], none)

/-- Predicate on one produced line of `wrapWordsGo`, given the columns it was
offered: either the line fits the offer, or it is a single word wider than
the offer. -/
def goodLine (avail : Nat) (l : List String) : Prop :=
  lineWidth l ≤ avail ∨ ∃ w, l = [w] ∧ avail < strWidth w

/-- Example puzzle whose only clue group references index 99 while the clue
sequence has length 5. -/
def oobPuzzle : Puzzle where
  board := "<svg/>"
  clue_lists := [{ clues := [99], name := Direction.Across }]
  clues := List.replicate 5 { label := "1", text := ["t"] }

/-- Example document around `oobPuzzle`. -/
def oobDoc : MiniCrossword where
  body := [oobPuzzle]
  constructors := ["A"]
  editor := "E"
  publication_date := "D"

/-- Example document with an empty board list. -/
def emptyBodyDoc : MiniCrossword where
  body := []
  constructors := []
  editor := "E"
  publication_date := "D"

/-- Example puzzle whose first clue has an empty sequence of text variants. -/
def emptyTextPuzzle : Puzzle where
  board := "<svg/>"
  clue_lists := [{ clues := [0], name := Direction.Down }]
  clues := [{ label := "1", text := [] }]

/-- Example document around `emptyTextPuzzle`. -/
def emptyTextDoc : MiniCrossword where
  body := [emptyTextPuzzle]
  constructors := ["A"]
  editor := "E"
  publication_date := "D"

/-- Comma-separated join, following the spec's words "the names separated by
a comma-space". -/
def joinComma : List String → String
  | [] => ""
  | [x] => x
  | x :: xs => x ++ ", " ++ joinComma xs

/-- Oxford-comma join as the spec words it: all but the last name separated
by `", "`, then `", and "` before the final name. -/
def oxfordJoin (xs : List String) : String :=
  joinComma xs.dropLast ++ ", and " ++ xs.getLastD ""

/-- Bridges the computable `Rat.floor` used by `rround` to Mathlib's
`Int.floor`. -/
theorem ratFloor_intFloor (q : ℚ) : q.floor = ⌊q⌋ := by
  rw [Rat.floor_def', Rat.floor_def]

/-- Characterizes `rround` on a half-open unit interval. -/
theorem rround_eq (q : ℚ) (z : ℤ) (h1 : (z : ℚ) ≤ q + 1 / 2) (h2 : q + 1 / 2 < z + 1) :
    rround q = z := by
  rw [rround, ratFloor_intFloor]
  exact Int.floor_eq_iff.mpr ⟨h1, h2⟩

/-- Display width distributes over string append. -/
theorem strWidth_append (a b : String) : strWidth (a ++ b) = strWidth a + strWidth b := by
  simp [strWidth, String.data_append]

/-- Display width of a single space. -/
theorem strWidth_space : strWidth " " = 1 := by decide

/-- Display width of a run of `n` spaces is `n`. -/
theorem strWidth_spaces (n : Nat) : strWidth (spaces n) = n := by
  induction n with
  | zero => rfl
  | succ k ih =>
    have h : spaces (k + 1) = " " ++ spaces k := by
      simp [spaces, List.replicate_succ]
      rfl
    rw [h, strWidth_append, ih, strWidth_space]
    omega

/-- Display width of a space-joined line of words equals `lineWidth`. -/
theorem strWidth_joinSp : ∀ l : List String, strWidth (joinSp l) = lineWidth l := by
  intro l
  match l with
  | [] => rfl
  | [w] => simp [joinSp, lineWidth, lineSum]
  | w :: x :: ws =>
    have ih := strWidth_joinSp (x :: ws)
    simp only [joinSp, strWidth_append, ih, strWidth_space, lineWidth, lineSum, List.map_cons,
      List.sum_cons]
    omega

/-- Closed form of the `format_list` loop over every item after the first. -/
theorem format_list_go_from :
    ∀ (ys : List String) (L n : Nat) (out : String), 1 ≤ n → n + ys.length = L →
      (List.enumFrom n ys).foldl (format_list_step L) out = out ++ midPart ys := by
  intro ys
  induction ys with
  | nil =>
    intro L n out h1 h2
    simp [List.enumFrom, midPart]
  | cons y ys ih =>
    intro L n out h1 h2
    simp only [List.enumFrom, List.foldl_cons]
    cases ys with
    | nil =>
      have hn : n = L - 1 := by simp at h2; omega
      simp [format_list_step, hn, midPart, List.enumFrom, String.append_assoc]
    | cons y2 ys2 =>
      have hne : ¬ n = L - 1 := by simp at h2; omega
      have hn0 : ¬ n = 0 := by omega
      rw [ih L (n + 1) _ (by omega) (by simp at h2 ⊢; omega)]
      simp [format_list_step, hne, hn0, midPart, String.append_assoc]

/-- Relates the loop's closed form to the spec-side Oxford join. -/
theorem midPart_oxford :
    ∀ (ys : List String) (x : String), ys ≠ [] → x ++ midPart ys = oxfordJoin (x :: ys) := by
  intro ys
  induction ys with
  | nil => intro x h; exact absurd rfl h
  | cons y ys ih =>
    intro x h
    cases ys with
    | nil => simp [midPart, oxfordJoin, joinComma, String.append_assoc]
    | cons y2 ys2 =>
      have hih := ih y (by simp)
      simp only [midPart, oxfordJoin] at hih ⊢
      rw [show (x :: y :: y2 :: ys2).dropLast = x :: (y :: y2 :: ys2).dropLast from rfl]
      rw [show (x :: y :: y2 :: ys2).getLastD "" = (y :: y2 :: ys2).getLastD "" from rfl]
      cases hd : (y :: y2 :: ys2).dropLast with
      | nil => simp [List.dropLast] at hd
      | cons z zs =>
        rw [hd] at hih
        simp only [joinComma]
        simp only [String.append_assoc] at hih ⊢
        rw [hih]

/-- The `format_list` loop on a list of two or more items. -/
theorem format_list_go_closed (x : String) (ys : List String) (h : ys ≠ []) :
    format_list_go (x :: ys) = x ++ midPart ys := by
  unfold format_list_go
  have hL : ¬ (0 : Nat) = (x :: ys).length - 1 := by
    cases ys with
    | nil => exact absurd rfl h
    | cons a l => simp
  simp only [List.enum, List.enumFrom, List.foldl_cons, format_list_step, hL, if_false,
    ne_eq, not_true_eq_false]
  rw [format_list_go_from ys (x :: ys).length 1 _ le_rfl (by simp [Nat.add_comm])]
  simp

/-- `fillLine` splits its input into the taken words and the leftovers. -/
theorem fillLine_split :
    ∀ (ws : List String) (avail used : Nat),
      ws = (fillLine avail used ws).1 ++ (fillLine avail used ws).2 := by
  intro ws
  induction ws with
  | nil => intro avail used; rfl
  | cons w ws ih =>
    intro avail used
    simp only [fillLine]
    split
    · simpa using ih avail (used + 1 + strWidth w)
    · rfl

/-- Every word `fillLine` adds to a line is strictly narrower than the
column offer. -/
theorem fillLine_mem :
    ∀ (ws : List String) (avail used : Nat) (x : String),
      x ∈ (fillLine avail used ws).1 → strWidth x < avail := by
  intro ws
  induction ws with
  | nil => intro avail used x hx; simp [fillLine] at hx
  | cons w ws ih =>
    intro avail used x hx
    simp only [fillLine] at hx
    split at hx
    · next hcond =>
      simp only [List.mem_cons] at hx
      rcases hx with rfl | hx
      · omega
      · exact ih avail (used + 1 + strWidth w) x hx
    · simp at hx

/-- A line whose occupied width fits the offer still fits it after
`fillLine` extends it. -/
theorem fillLine_sum :
    ∀ (ws : List String) (avail used : Nat), used ≤ avail →
      used + lineSum (fillLine avail used ws).1 ≤ avail := by
  intro ws
  induction ws with
  | nil => intro avail used h; simpa [fillLine, lineSum] using h
  | cons w ws ih =>
    intro avail used h
    simp only [fillLine]
    split
    · next hcond =>
      have := ih avail (used + 1 + strWidth w) hcond
      simp only [lineSum, List.map_cons, List.sum_cons] at this ⊢
      omega
    · simpa [lineSum] using h

/-- A line already over the offer takes no further word. -/
theorem fillLine_oversized :
    ∀ (ws : List String) (avail used : Nat), avail < used →
      (fillLine avail used ws).1 = [] := by
  intro ws avail used h
  cases ws with
  | nil => rfl
  | cons w tail =>
    simp only [fillLine]
    split
    · next hcond => omega
    · rfl

/-- The leftovers of `fillLine` are no longer than its input. -/
theorem fillLine_len :
    ∀ (ws : List String) (avail used : Nat),
      (fillLine avail used ws).2.length ≤ ws.length := by
  intro ws avail used
  have h := fillLine_split ws avail used
  calc (fillLine avail used ws).2.length
      ≤ (fillLine avail used ws).1.length + (fillLine avail used ws).2.length := by omega
    _ = ws.length := by rw [← List.length_append, ← h]

/-- Every word of every produced line comes from the input word list. -/
theorem wrapWordsGo_mem_words :
    ∀ (fuel : Nat) (a b : Nat) (ws : List String), ws.length ≤ fuel →
      ∀ l ∈ wrapWordsGo a b fuel ws, ∀ x ∈ l, x ∈ ws := by
  intro fuel
  induction fuel with
  | zero =>
    intro a b ws hlen l hl x hx
    cases ws with
    | nil => simp [wrapWordsGo] at hl
    | cons w tail => simp at hlen
  | succ fuel ih =>
    intro a b ws hlen l hl x hx
    cases ws with
    | nil => simp [wrapWordsGo] at hl
    | cons w tail =>
      simp only [wrapWordsGo, List.mem_cons] at hl
      rcases hl with rfl | hl
      · rcases List.mem_cons.mp hx with rfl | hx2
        · exact List.mem_cons_self _ _
        · have hsub := fillLine_split tail a (strWidth w)
          exact List.mem_cons_of_mem _ (hsub ▸ List.mem_append_left _ hx2)
      · have hlen2 : (fillLine a (strWidth w) tail).2.length ≤ fuel := by
          have := fillLine_len tail a (strWidth w)
          simp at hlen
          omega
        have hmem := ih b b _ hlen2 l hl x hx
        have hsub := fillLine_split tail a (strWidth w)
        exact List.mem_cons_of_mem _ (hsub ▸ List.mem_append_right _ hmem)

/-- A word wider than both column offers always ends up alone on a line. -/
theorem wrapWordsGo_oversized :
    ∀ (fuel : Nat) (a b : Nat) (ws : List String), ws.length ≤ fuel →
      ∀ w ∈ ws, a < strWidth w → b < strWidth w → [w] ∈ wrapWordsGo a b fuel ws := by
  intro fuel
  induction fuel with
  | zero =>
    intro a b ws hlen w hw ha hb
    cases ws with
    | nil => simp at hw
    | cons v tail => simp at hlen
  | succ fuel ih =>
    intro a b ws hlen w hw ha hb
    cases ws with
    | nil => simp at hw
    | cons v tail =>
      simp only [wrapWordsGo, List.mem_cons]
      rcases List.mem_cons.mp hw with rfl | hw2
      · left
        rw [fillLine_oversized tail a (strWidth w) ha]
      · right
        have hsplit := fillLine_split tail a (strWidth v)
        have hmem2 : w ∈ (fillLine a (strWidth v) tail).2 := by
          rcases List.mem_append.mp (hsplit ▸ hw2) with hin1 | hin2
          · exact absurd (fillLine_mem tail a (strWidth v) w hin1) (by omega)
          · exact hin2
        have hlen2 : (fillLine a (strWidth v) tail).2.length ≤ fuel := by
          have := fillLine_len tail a (strWidth v)
          simp at hlen
          omega
        exact ih b b _ hlen2 w hmem2 hb hb

/-- Structure of the produced lines: the first is good for the first offer,
all later ones for the later offer. -/
theorem wrapWordsGo_good :
    ∀ (fuel : Nat) (a b : Nat) (ws : List String), ws.length ≤ fuel →
      wrapWordsGo a b fuel ws = [] ∨
        ∃ l0 rest, wrapWordsGo a b fuel ws = l0 :: rest ∧ goodLine a l0 ∧
          ∀ l ∈ rest, goodLine b l := by
  intro fuel
  induction fuel with
  | zero =>
    intro a b ws hlen
    cases ws with
    | nil => left; rfl
    | cons w tail => simp at hlen
  | succ fuel ih =>
    intro a b ws hlen
    cases ws with
    | nil => left; rfl
    | cons w tail =>
      right
      refine ⟨w :: (fillLine a (strWidth w) tail).1, _, rfl, ?_, ?_⟩
      · by_cases hfit : strWidth w ≤ a
        · left
          have := fillLine_sum tail a (strWidth w) hfit
          simp only [lineWidth]
          omega
        · right
          refine ⟨w, ?_, by omega⟩
          rw [fillLine_oversized tail a (strWidth w) (by omega)]
      · intro l hl
        have hlen2 : (fillLine a (strWidth w) tail).2.length ≤ fuel := by
          have := fillLine_len tail a (strWidth w)
          simp at hlen
          omega
        rcases ih b b _ hlen2 with hnil | ⟨l0, rest, heq, hg0, hgrest⟩
        · rw [hnil] at hl; simp at hl
        · rw [heq] at hl
          rcases List.mem_cons.mp hl with rfl | hl2
          · exact hg0
          · exact hgrest l hl2

/-- Every produced line carries its indent as a literal prefix: the first
line the initial indent, every later line the subsequent indent. -/
theorem wrap_line_indent (text : String) (width : Nat) (ii si : String) (i : Nat) (l : String)
    (h : (wrap text width ii si).get? i = some l) :
    ∃ r, l = (if i = 0 then ii else si) ++ r := by
  unfold wrap at h
  cases heq : wrapWords (width - strWidth ii) (width - strWidth si) (splitWords text) with
  | nil => rw [heq] at h; simp at h
  | cons l0 rest =>
    rw [heq] at h
    cases i with
    | zero =>
      simp only [List.get?] at h
      injection h with h2
      exact ⟨joinSp l0, by simp [← h2]⟩
    | succ j =>
      simp only [List.get?] at h
      rw [List.get?_eq_getElem?, List.getElem?_map] at h
      cases hj : rest[j]? with
      | none => rw [hj] at h; simp at h
      | some l2 =>
        rw [hj] at h
        simp only [Option.map_some'] at h
        injection h with h2
        exact ⟨joinSp l2, by simp [h2]⟩

/-- Only `writeln` directives are emitted by the clue loop. -/
theorem clueDirectives_shape :
    ∀ (idxs : List Nat) (clues : List Clue) (d : Directive),
      d ∈ (clueDirectives clues idxs).1 → ∃ s, d = Directive.writeln s := by
  intro idxs
  induction idxs with
  | nil => intro clues d hd; simp [clueDirectives] at hd
  | cons i rest ih =>
    intro clues d hd
    cases hg : clues[i]? with
    | none => simp [clueDirectives, hg] at hd
    | some c =>
      cases htx : c.text[0]? with
      | none => simp [clueDirectives, hg, htx] at hd
      | some t =>
        rw [show clueDirectives clues (i :: rest) =
            ((clue_lines c t).map Directive.writeln ++ (clueDirectives clues rest).1,
              (clueDirectives clues rest).2) from by
          simp [clueDirectives, hg, htx]] at hd
        simp only [List.mem_append, List.mem_map] at hd
        rcases hd with ⟨s, _, rfl⟩ | hd2
        · exact ⟨s, rfl⟩
        · exact ih clues d hd2

/-- Only `writeln` and `feed` directives are emitted by the clue-list loop. -/
theorem clueListDirectives_shape :
    ∀ (lists : List ClueList) (clues : List Clue) (d : Directive),
      d ∈ (clueListDirectives clues lists).1 →
        (∃ s, d = Directive.writeln s) ∨ d = Directive.feed := by
  intro lists
  induction lists with
  | nil => intro clues d hd; simp [clueListDirectives] at hd
  | cons cl rest ih =>
    intro clues d hd
    cases hp : (clueDirectives clues cl.clues).2 with
    | some e =>
      rw [show clueListDirectives clues (cl :: rest) =
          (Directive.writeln (dirName cl.name ++ ":") :: (clueDirectives clues cl.clues).1,
            some e) from by simp [clueListDirectives, hp]] at hd
      rcases List.mem_cons.mp hd with rfl | hd2
      · exact Or.inl ⟨_, rfl⟩
      · exact Or.inl (clueDirectives_shape cl.clues clues d hd2)
    | none =>
      rw [show clueListDirectives clues (cl :: rest) =
          (Directive.writeln (dirName cl.name ++ ":") :: (clueDirectives clues cl.clues).1
              ++ [Directive.feed] ++ (clueListDirectives clues rest).1,
            (clueListDirectives clues rest).2) from by simp [clueListDirectives, hp]] at hd
      simp only [List.mem_cons, List.mem_append] at hd
      rcases hd with ((rfl | hd2) | rfl | hnil) | hd3
      · exact Or.inl ⟨_, rfl⟩
      · exact Or.inl (clueDirectives_shape cl.clues clues d hd2)
      · exact Or.inr rfl
      · simp at hnil
      · exact ih clues d hd3

/-- An unresolvable clue reference anywhere in the index list makes the clue
loop end in a panic. -/
theorem clueDirectives_fails :
    ∀ (idxs : List Nat) (clues : List Clue) (i : Nat), i ∈ idxs →
      (clues[i]? = none ∨ ∃ c, clues[i]? = some c ∧ c.text = []) →
      (clueDirectives clues idxs).2 ≠ none := by
  intro idxs
  induction idxs with
  | nil => intro clues i hi; simp at hi
  | cons j rest ih =>
    intro clues i hi hbad
    cases hg : clues[j]? with
    | none => simp [clueDirectives, hg]
    | some c =>
      cases htx : c.text[0]? with
      | none => simp [clueDirectives, hg, htx]
      | some t =>
        rw [show clueDirectives clues (j :: rest) =
            ((clue_lines c t).map Directive.writeln ++ (clueDirectives clues rest).1,
              (clueDirectives clues rest).2) from by
          simp [clueDirectives, hg, htx]]
        rcases List.mem_cons.mp hi with rfl | hi2
        · rcases hbad with hn | ⟨c2, hc2, htxt⟩
          · rw [hg] at hn; cases hn
          · rw [hg] at hc2
            injection hc2 with hcc
            subst hcc
            rw [htxt] at htx
            simp at htx
        · exact ih clues i hi2 hbad

/-- A failing clue group makes the clue-list loop end in a panic. -/
theorem clueListDirectives_fails :
    ∀ (lists : List ClueList) (clues : List Clue) (cl : ClueList), cl ∈ lists →
      (clueDirectives clues cl.clues).2 ≠ none →
      (clueListDirectives clues lists).2 ≠ none := by
  intro lists
  induction lists with
  | nil => intro clues cl hcl; simp at hcl
  | cons cl0 rest ih =>
    intro clues cl hcl hne
    cases hp : (clueDirectives clues cl0.clues).2 with
    | some e => simp [clueListDirectives, hp]
    | none =>
      rw [show clueListDirectives clues (cl0 :: rest) =
          (Directive.writeln (dirName cl0.name ++ ":") :: (clueDirectives clues cl0.clues).1
              ++ [Directive.feed] ++ (clueListDirectives clues rest).1,
            (clueListDirectives clues rest).2) from by simp [clueListDirectives, hp]]
      rcases List.mem_cons.mp hcl with rfl | hcl2
      · exact absurd hp hne
      · exact ih clues cl hcl2 hne

/-- Claim C1: for every board whose vector description parses to intrinsic
size `(w0, h0)` with `w0 > 0`, the rasterizer produces a bitmap of integer
pixel width exactly `chars_per_line * pixels_per_char` (384), uses the scale
`s = round((W / w0) * 100) / 100`, and produces integer pixel height
`round(h0 * s)`. -/
theorem rasterizer_dims (w0 h0 : ℚ) (h : 0 < w0) :
    (canvas_size w0 h0).1 = (chars_per_line * pixels_per_char : ℤ) ∧
    scale w0 = (rround (((chars_per_line * pixels_per_char : ℕ) : ℚ) / w0 * 100) : ℚ) / 100 ∧
    (canvas_size w0 h0).2 = rround (h0 * scale w0) ∧
    chars_per_line * pixels_per_char = 384 := by
  have harg : target_width = ((chars_per_line * pixels_per_char : ℕ) : ℚ) := by
    norm_num [target_width, chars_per_line, pixels_per_char]
  refine ⟨?_, ?_, rfl, by norm_num [chars_per_line, pixels_per_char]⟩
  · show rround target_width = _
    rw [rround_eq target_width 384 (by norm_num [target_width, chars_per_line, pixels_per_char])
      (by norm_num [target_width, chars_per_line, pixels_per_char])]
    norm_num [chars_per_line, pixels_per_char]
  · rw [scale, harg]

/-- Witness for C1: the spec's 300 by 300 board scenario, where the scale is
1.28 and the bitmap is 384 by 384. -/
theorem rasterizer_dims_witness :
    (0 : ℚ) < 300 ∧
    ((canvas_size 300 300).1 = (chars_per_line * pixels_per_char : ℤ) ∧
      scale 300 = (rround (((chars_per_line * pixels_per_char : ℕ) : ℚ) / 300 * 100) : ℚ) / 100 ∧
      (canvas_size 300 300).2 = rround (300 * scale 300) ∧
      chars_per_line * pixels_per_char = 384) ∧
    scale 300 = 128 / 100 ∧ canvas_size 300 300 = (384, 384) := by
  have hs : scale 300 = 128 / 100 := by
    have h1 : rround (target_width / 300 * 100) = 128 := by
      apply rround_eq
      · norm_num [target_width, pixels_per_char, chars_per_line]
      · norm_num [target_width, pixels_per_char, chars_per_line]
    rw [scale, h1]
    norm_num
  have hw : rround target_width = 384 := by
    apply rround_eq
    · norm_num [target_width, pixels_per_char, chars_per_line]
    · norm_num [target_width, pixels_per_char, chars_per_line]
  refine ⟨by norm_num, rasterizer_dims 300 300 (by norm_num), hs, ?_⟩
  show (rround target_width, rround (300 * scale 300)) = (384, 384)
  rw [hs, hw]
  have h2 : rround (300 * (128 / 100 : ℚ)) = 384 := by
    apply rround_eq
    · norm_num
    · norm_num
  rw [h2]

/-- Claim C2: a word whose display width exceeds the available width (the
configured width minus either indent's width) is placed on a line of its own,
unbroken: some produced line is exactly an indent followed by that word. -/
theorem wrap_oversized_word (text : String) (width : Nat)
    (initial_indent subsequent_indent : String) (w : String)
    (hw : w ∈ splitWords text)
    (h1 : width - strWidth initial_indent < strWidth w)
    (h2 : width - strWidth subsequent_indent < strWidth w) :
    initial_indent ++ w ∈ wrap text width initial_indent subsequent_indent ∨
      subsequent_indent ++ w ∈ wrap text width initial_indent subsequent_indent := by
  have hmem : [w] ∈ wrapWords (width - strWidth initial_indent)
      (width - strWidth subsequent_indent) (splitWords text) :=
    wrapWordsGo_oversized _ _ _ _ le_rfl w hw h1 h2
  unfold wrap
  cases heq : wrapWords (width - strWidth initial_indent) (width - strWidth subsequent_indent)
      (splitWords text) with
  | nil => rw [heq] at hmem; simp at hmem
  | cons l rest =>
    rw [heq] at hmem
    rcases List.mem_cons.mp hmem with hhead | htail
    · left
      simp [← hhead, joinSp]
    · right
      simp only [List.mem_cons]
      right
      exact List.mem_map.mpr ⟨[w], htail, by simp [joinSp]⟩

/-- Witness for C2: the 15-column word of "it extraordinarily" overflows a
10-column wrap with empty indents and appears intact on its own line. -/
theorem wrap_oversized_word_witness :
    "" ++ "extraordinarily" ∈ wrap "it extraordinarily" 10 "" "" ∨
      "" ++ "extraordinarily" ∈ wrap "it extraordinarily" 10 "" "" :=
  wrap_oversized_word "it extraordinarily" 10 "" "" "extraordinarily"
    (by decide) (by decide) (by decide)

/-- Counterexample for claim C3: `format_list` applied to the empty list
returns a normal result (the empty string, of length 0) instead of failing:
the empty slice falls to the catch-all match arm, whose loop body never
runs. -/
theorem format_list_nil_normal : (format_list []).length = 0 := rfl

/-- Claim C3 as amended: `format_list` applied to an empty sequence of names
returns the empty string as an ordinary value; empty input is not rejected
and no failure occurs. -/
theorem format_list_nil : format_list [] = "" := rfl

/-- Claim C4: wrapping empty text produces an empty sequence of lines, for
every width and every pair of indents. -/
theorem wrap_empty_text (width : Nat) (a b : String) : wrap "" width a b = [] := rfl

/-- Claim C5: one name is returned as is; two names are joined with
`" and "` and no comma; three or more names are separated by `", "` with
`", and "` before the final name (Oxford comma). -/
theorem format_list_laws :
    (∀ x : String, format_list [x] = x) ∧
    (∀ x y : String, format_list [x, y] = x ++ " and " ++ y) ∧
    ∀ xs : List String, 3 ≤ xs.length → format_list xs = oxfordJoin xs := by
  refine ⟨fun x => rfl, fun x y => rfl, ?_⟩
  intro xs h
  match xs with
  | x :: y :: z :: rest =>
    show format_list_go (x :: y :: z :: rest) = _
    rw [format_list_go_closed x (y :: z :: rest) (by simp)]
    exact midPart_oxford (y :: z :: rest) x (by simp)

/-- Witness for C5: four names produce the Oxford-comma join
"A, B, C, and D". -/
theorem format_list_laws_witness :
    format_list ["A", "B", "C", "D"] = oxfordJoin ["A", "B", "C", "D"] ∧
    format_list ["A", "B", "C", "D"] = "A, B, C, and D" :=
  ⟨format_list_laws.2.2 ["A", "B", "C", "D"] (by decide), by decide⟩

/-- Claim C6: when each indent fits the configured column count, every
produced line's display width is at most that count, except a line that is an
indent plus a single word wider than the corresponding available width. -/
theorem wrap_width_invariant (text : String) (width : Nat)
    (initial_indent subsequent_indent : String)
    (hi : strWidth initial_indent ≤ width) (hc : strWidth subsequent_indent ≤ width)
    (l : String) (hl : l ∈ wrap text width initial_indent subsequent_indent) :
    strWidth l ≤ width ∨
      ∃ w, w ∈ splitWords text ∧
        ((l = initial_indent ++ w ∧ width - strWidth initial_indent < strWidth w) ∨
          (l = subsequent_indent ++ w ∧ width - strWidth subsequent_indent < strWidth w)) := by
  unfold wrap at hl
  cases heq : wrapWords (width - strWidth initial_indent) (width - strWidth subsequent_indent)
      (splitWords text) with
  | nil => rw [heq] at hl; simp at hl
  | cons l0 rest =>
    rw [heq] at hl
    have hgood := wrapWordsGo_good (splitWords text).length
      (width - strWidth initial_indent) (width - strWidth subsequent_indent)
      (splitWords text) le_rfl
    rw [show wrapWordsGo (width - strWidth initial_indent) (width - strWidth subsequent_indent)
        (splitWords text).length (splitWords text) = wrapWords (width - strWidth initial_indent)
        (width - strWidth subsequent_indent) (splitWords text) from rfl, heq] at hgood
    rcases hgood with hnil | ⟨l0b, restb, heq2, hg0, hgrest⟩
    · simp at hnil
    · injection heq2 with h0 hrest
      subst h0
      subst hrest
      have hwords := wrapWordsGo_mem_words (splitWords text).length
        (width - strWidth initial_indent) (width - strWidth subsequent_indent)
        (splitWords text) le_rfl
      rw [show wrapWordsGo (width - strWidth initial_indent) (width - strWidth subsequent_indent)
          (splitWords text).length (splitWords text) = wrapWords (width - strWidth initial_indent)
          (width - strWidth subsequent_indent) (splitWords text) from rfl, heq] at hwords
      rcases List.mem_cons.mp hl with rfl | hl2
      · rcases hg0 with hfits | ⟨w, rfl, hover⟩
        · left
          rw [strWidth_append, strWidth_joinSp]
          omega
        · right
          refine ⟨w, hwords [w] (List.mem_cons_self _ _) w (by simp),
            Or.inl ⟨by simp [joinSp], hover⟩⟩
      · rcases List.mem_map.mp hl2 with ⟨l2, hl2mem, rfl⟩
        rcases hgrest l2 hl2mem with hfits | ⟨w, rfl, hover⟩
        · left
          rw [strWidth_append, strWidth_joinSp]
          omega
        · right
          refine ⟨w, hwords [w] (List.mem_cons_of_mem _ hl2mem) w (by simp),
            Or.inr ⟨by simp [joinSp], hover⟩⟩

/-- Witness for C6: at width 6 with empty indents, the produced line "hello"
of "hello world" obeys the width invariant. -/
theorem wrap_width_invariant_witness :
    strWidth "hello" ≤ 6 ∨
      ∃ w, w ∈ splitWords "hello world" ∧
        (("hello" = "" ++ w ∧ 6 - strWidth "" < strWidth w) ∨
          ("hello" = "" ++ w ∧ 6 - strWidth "" < strWidth w)) :=
  wrap_width_invariant "hello world" 6 "" "" (by decide) (by decide) "hello" (by decide)

/-- Claim C7: each clue's wrap call uses the label `"<label>: "` as initial
indent and a run of spaces of equal display width as continuation indent, so
the first produced line starts with the label prefix and every later line
with the matching run of spaces, aligning all lines' content in the same
column. -/
theorem clue_line_alignment (c : Clue) (t : String) (i : Nat) (l : String)
    (h : (clue_lines c t).get? i = some l) :
    clue_lines c t =
      wrap t chars_per_line (c.label ++ ": ") (spaces (strWidth (c.label ++ ": "))) ∧
    strWidth (spaces (strWidth (clue_indent c))) = strWidth (clue_indent c) ∧
    ∃ r, l = (if i = 0 then clue_indent c else spaces (strWidth (clue_indent c))) ++ r :=
  ⟨rfl, strWidth_spaces _, wrap_line_indent t chars_per_line _ _ i l h⟩

/-- Witness for C7: the clue labelled "5" with text "Capital of France"
produces a first line carrying the `"5: "` prefix. -/
theorem clue_line_alignment_witness :
    clue_lines ⟨"5", ["Capital of France"]⟩ "Capital of France" =
      wrap "Capital of France" chars_per_line ("5" ++ ": ")
        (spaces (strWidth ("5" ++ ": "))) ∧
    strWidth (spaces (strWidth (clue_indent ⟨"5", ["Capital of France"]⟩))) =
        strWidth (clue_indent ⟨"5", ["Capital of France"]⟩) ∧
    ∃ r, "5: Capital of France" =
      (if 0 = 0 then clue_indent ⟨"5", ["Capital of France"]⟩
       else spaces (strWidth (clue_indent ⟨"5", ["Capital of France"]⟩))) ++ r :=
  clue_line_alignment ⟨"5", ["Capital of France"]⟩ "Capital of France" 0
    "5: Capital of France" (by decide)

/-- Claim C8: when any clue group of the selected board references a clue
index at or beyond the length of the board's clue sequence, composing fails
with a panic, the output is cut short at the clue stage (so the credit
block, the editor line and the cut directive are never emitted), and the
directives emitted before the failure remain exactly the emitted prefix. -/
theorem compose_out_of_bounds (m : MiniCrossword) (p : Puzzle)
    (hp : m.body[0]? = some p) (cl : ClueList) (hcl : cl ∈ p.clue_lists)
    (i : Nat) (hi : i ∈ cl.clues) (hlen : p.clues.length ≤ i) :
    (compose m).2 ≠ none ∧
    (compose m).1 =
      preDirectives m.publication_date ++ (clueListDirectives p.clues p.clue_lists).1 ∧
    Directive.cut ∉ (compose m).1 ∧
    Directive.write "Edited by " ∉ (compose m).1 := by
  have hnone : p.clues[i]? = none := by
    rw [List.getElem?_eq_none_iff]
    exact hlen
  have hfail := clueListDirectives_fails p.clue_lists p.clues cl hcl
    (clueDirectives_fails cl.clues p.clues i hi (Or.inl hnone))
  cases he : (clueListDirectives p.clues p.clue_lists).2 with
  | none => exact absurd he hfail
  | some e =>
    have hcomp : compose m =
        (preDirectives m.publication_date ++ (clueListDirectives p.clues p.clue_lists).1,
          some e) := by
      simp [compose, hp, he]
    rw [hcomp]
    refine ⟨by simp, rfl, ?_, ?_⟩
    · intro hmem
      rcases List.mem_append.mp hmem with hpre | hrest
      · simp [preDirectives] at hpre
      · rcases clueListDirectives_shape _ _ _ hrest with ⟨s, hs⟩ | hf
        · cases hs
        · cases hf
    · intro hmem
      rcases List.mem_append.mp hmem with hpre | hrest
      · simp [preDirectives] at hpre
      · rcases clueListDirectives_shape _ _ _ hrest with ⟨s, hs⟩ | hf
        · cases hs
        · cases hf

/-- Witness for C8: a clue group referencing index 99 over 5 clues fails and
never emits the credit block, editor line or cut. -/
theorem compose_out_of_bounds_witness :
    (compose oobDoc).2 ≠ none ∧
    (compose oobDoc).1 =
      preDirectives oobDoc.publication_date ++
        (clueListDirectives oobPuzzle.clues oobPuzzle.clue_lists).1 ∧
    Directive.cut ∉ (compose oobDoc).1 ∧
    Directive.write "Edited by " ∉ (compose oobDoc).1 :=
  compose_out_of_bounds oobDoc oobPuzzle (by decide) ⟨[99], Direction.Across⟩ (by decide)
    99 (by decide) (by decide)

/-- Claim C9: a document whose board list is empty panics on the unchecked
index `body[0]` before any print directive is produced. -/
theorem compose_empty_body (m : MiniCrossword) (h : m.body = []) :
    compose m = ([], some PanicErr.boardIndex) := by
  simp [compose, h]

/-- Witness for C9: the concrete empty-body document aborts with the board
index panic and an empty directive list. -/
theorem compose_empty_body_witness :
    compose emptyBodyDoc = ([], some PanicErr.boardIndex) :=
  compose_empty_body emptyBodyDoc rfl

/-- Claim C10: a referenced clue whose sequence of text variants is empty
makes composing fail with an out-of-bounds panic on `clue.text[0]`, aborting
the run mid-sequence before the cut directive. -/
theorem compose_empty_clue_text (m : MiniCrossword) (p : Puzzle)
    (hp : m.body[0]? = some p) (cl : ClueList) (hcl : cl ∈ p.clue_lists)
    (i : Nat) (hi : i ∈ cl.clues) (c : Clue) (hc : p.clues[i]? = some c)
    (ht : c.text = []) :
    (compose m).2 ≠ none ∧ Directive.cut ∉ (compose m).1 := by
  have hfail := clueListDirectives_fails p.clue_lists p.clues cl hcl
    (clueDirectives_fails cl.clues p.clues i hi (Or.inr ⟨c, hc, ht⟩))
  cases he : (clueListDirectives p.clues p.clue_lists).2 with
  | none => exact absurd he hfail
  | some e =>
    have hcomp : compose m =
        (preDirectives m.publication_date ++ (clueListDirectives p.clues p.clue_lists).1,
          some e) := by
      simp [compose, hp, he]
    rw [hcomp]
    refine ⟨by simp, ?_⟩
    intro hmem
    rcases List.mem_append.mp hmem with hpre | hrest
    · simp [preDirectives] at hpre
    · rcases clueListDirectives_shape _ _ _ hrest with ⟨s, hs⟩ | hf
      · cases hs
      · cases hf

/-- Witness for C10: the concrete document whose only clue has no text
variants fails and never reaches the cut. -/
theorem compose_empty_clue_text_witness :
    (compose emptyTextDoc).2 ≠ none ∧ Directive.cut ∉ (compose emptyTextDoc).1 :=
  compose_empty_clue_text emptyTextDoc emptyTextPuzzle (by decide) ⟨[0], Direction.Down⟩
    (by decide) 0 (by decide) ⟨"1", []⟩ (by decide) (by decide)

end MiniPrint
